import Mathlib

/-!
Verification of the barbarian-ultimate VOD proxy server.

This development shallowly embeds the server's core pure logic:

* the M3U8 manifest rewrite performed by the `/api/video/:videoId` route
  (three chained regex replaces over the playlist text);
* the duration extractor inside `getVideoDuration` (scan of `#EXTINF:` lines);
* the MP4 container proxy `/api/mp4/:filename` (status / `Content-Range`
  passthrough, modelled on the upstream response it reacts to);
* the chat range assembler `/api/chat/:videoId/:startTime/:endTime`
  (per-second shard fan-out, stamping, stable sort by
  `(video_timestamp, timestamp || 0)`);
* the metadata reconciliation `syncMetadata` (add-only key→record store).

Text is modelled as `List Char`; manifests are split on `'\n'` exactly as
`String.prototype.split('\n')` and the multiline regex anchors do.
JS numbers appearing in duration arithmetic are modelled as `ℚ` with an
explicit `Option` layer whose `none` stands for `NaN` (the inputs the claims
exercise are dyadic, where JS doubles are exact); `Math.round` is the
round-half-up `⌊q + 1/2⌋`.
-/

/-! ## Character-list scanning primitives -/

/-- The double-quote character. -/
def qc : Char := Char.ofNat 34

/-- `startsL p l` holds when the pattern `p` is an initial run of `l`
(Boolean version of "l starts with p"). -/
def startsL : List Char → List Char → Bool
  | [], _ => true
  | _ :: _, [] => false
  | p :: ps, c :: cs => decide (p = c) && startsL ps cs

/-- `endsL p l` holds when the pattern `p` is a final run of `l`. -/
def endsL (p l : List Char) : Bool := startsL p.reverse l.reverse

/-- `hasSub p l` holds when the pattern `p` occurs contiguously anywhere in `l`. -/
def hasSub (p : List Char) : List Char → Bool
  | [] => startsL p []
  | c :: rest => startsL p (c :: rest) || hasSub p rest

/-- Boolean membership of a character in a character list. -/
def memB (c : Char) : List Char → Bool
  | [] => false
  | d :: r => decide (d = c) || memB c r

/-! ## Manifest rewriter (route `/api/video/:videoId`)

The JS route performs, in order:

1. `.replace(/^(?!https?:\/\/|#)(.+\.ts)$/gm, 'https://barbarian.men/macaw45/videos/$1')`
2. `.replace(/URI="([^"]+\.mp4)"/g, 'URI="/api/mp4/$1"')`
3. `.replace(/^(?!https?:\/\/|#)(.+\.mp4)$/gm, '/api/mp4/$1')`

Steps 1 and 3 are whole-line rewrites (the pattern is anchored and `.` does
not cross `'\n'`); step 2 is a global scan of the entire text whose `[^"]+`
may cross newlines. -/

/-- Prefix prepended to relative `.ts` segment lines. -/
def tsPfx : List Char := "https://barbarian.men/macaw45/videos/".data

/-- Prefix prepended to bare relative `.mp4` lines. -/
def mp4Pfx : List Char := "/api/mp4/".data

/-- The text `URI="` opening a quoted attribute value. -/
def uriOpen : List Char := "URI=".data ++ [qc]

/-- The text `URI="/api/mp4/` that replaces a matched opener. -/
def uriNew : List Char := "URI=".data ++ qc :: "/api/mp4/".data

/-- The `.mp4` container extension. -/
def mp4Ext : List Char := ".mp4".data

/-- The `.ts` segment extension. -/
def tsExt : List Char := ".ts".data

/-- A line already absolute: starts with `http://` or `https://`
(the regex negative lookahead `(?!https?:\/\/|#)`, first alternative). -/
def isAbs (l : List Char) : Bool :=
  startsL "http://".data l || startsL "https://".data l

/-- A line starting with the directive marker `#`
(the lookahead's second alternative). -/
def isHash (l : List Char) : Bool := startsL ['#'] l

/-- Whole-line match of `^(?!https?:\/\/|#)(.+\.ts)$`: not absolute, not a
comment, ends in `.ts` with at least one character before it. -/
def tsLineMatch (l : List Char) : Bool :=
  !(isAbs l) && !(isHash l) && endsL tsExt l && decide (4 ≤ l.length)

/-- Whole-line match of `^(?!https?:\/\/|#)(.+\.mp4)$`. -/
def mp4LineMatch (l : List Char) : Bool :=
  !(isAbs l) && !(isHash l) && endsL mp4Ext l && decide (5 ≤ l.length)

/-- Replace step 1 on one line. -/
def r1Line (l : List Char) : List Char :=
  if tsLineMatch l then tsPfx ++ l else l

/-- Replace step 3 on one line. -/
def r3Line (l : List Char) : List Char :=
  if mp4LineMatch l then mp4Pfx ++ l else l

/-- Not the closing double quote (the `[^"]` character class). -/
def notQuote (c : Char) : Bool := !(decide (c = qc))

/-- One attempt of the regex `URI="([^"]+\.mp4)"` at the head of `s`.
On success returns the captured group and the remainder of the text after the
closing quote.  The capture is the maximal quote-free run after the opener,
which must end in `.mp4` with a nonempty part before it (`[^"]+\.mp4`). -/
def tryURI (s : List Char) : Option (List Char × List Char) :=
  if startsL uriOpen s then
    match (s.drop 5).dropWhile notQuote with
    | [] => none
    | _ :: tail =>
      let x := (s.drop 5).takeWhile notQuote
      if endsL mp4Ext x && decide (5 ≤ x.length) then some (x, tail) else none
  else none

/-- Fuelled scan implementing the global replace of step 2: at each position
try the pattern; on a match emit the rewritten attribute and resume after the
closing quote, otherwise keep the character and move one position right. -/
def r2Go : Nat → List Char → List Char
  | 0, s => s
  | _ + 1, [] => []
  | fuel + 1, c :: s =>
    match tryURI (c :: s) with
    | some (x, tail) => uriNew ++ x ++ qc :: r2Go fuel tail
    | none => c :: r2Go fuel s

/-- Replace step 2 on the whole text. -/
def r2 (s : List Char) : List Char := r2Go s.length s

/-- Split a text into its `'\n'`-separated lines, as `String.split('\n')`. -/
def splitOnNl : List Char → List (List Char)
  | [] => [[]]
  | c :: s =>
    if c = '\n' then [] :: splitOnNl s
    else
      match splitOnNl s with
      | [] => [[c]]
      | l :: ls => (c :: l) :: ls

/-- Rejoin lines with `'\n'`. -/
def joinNl : List (List Char) → List Char
  | [] => []
  | [l] => l
  | l :: ls => l ++ '\n' :: joinNl ls

/-- Apply a per-line transform to every line of a text. -/
def mapLines (f : List Char → List Char) (t : List Char) : List Char :=
  joinNl ((splitOnNl t).map f)

/-- The complete manifest rewrite of the `/api/video/:videoId` route:
step 1 linewise, then step 2 globally, then step 3 linewise. -/
def rewriteChars (t : List Char) : List Char :=
  mapLines r3Line (r2 (mapLines r1Line t))

/-- String-level wrapper of the manifest rewrite. -/
def rewriteManifest (s : String) : String := String.mk (rewriteChars s.data)

/-- Every occurrence of the `URI="` opener in `l` is followed by a closing
quote further inside `l` (quoted attributes do not dangle off the end). -/
def uriClosed : List Char → Bool
  | [] => true
  | c :: s =>
    (if startsL uriOpen (c :: s) then memB qc (s.drop 4) else true) && uriClosed s

/-! ## Duration extractor (`getVideoDuration`)

The JS scans `m3u8Content.split('\n')`; for every line with
`line.startsWith('#EXTINF:')` it evaluates
`line.match(/#EXTINF:([0-9.]+),/)` and, on a match, adds
`parseFloat(match[1])` to a running total, finally returning
`Math.round(totalDuration)`.  `parseFloat` of a digits-and-dots string is the
longest `digits [. digits]` prefix, `NaN` when that prefix has no digit; a
`NaN` contribution poisons the whole sum.  `none` in `Option ℚ` models `NaN`
below. -/

/-- The `#EXTINF:` directive header. -/
def extinfHdr : List Char := "#EXTINF:".data

/-- The `[0-9.]` character class. -/
def isNumDot (c : Char) : Bool := c.isDigit || decide (c = '.')

/-- One attempt of `/#EXTINF:([0-9.]+),/` at the head of `s`: literal header,
then a nonempty maximal `[0-9.]` run, then a comma.  Returns the capture. -/
def extinfTryAt (s : List Char) : Option (List Char) :=
  if startsL extinfHdr s then
    let d := (s.drop 8).takeWhile isNumDot
    match (s.drop 8).dropWhile isNumDot with
    | c :: _ => if decide (c = ',') && decide (0 < d.length) then some d else none
    | [] => none
  else none

/-- `line.match(/#EXTINF:([0-9.]+),/)`: leftmost position at which the
pattern matches, returning the captured `[0-9.]+` group. -/
def extinfMatch : List Char → Option (List Char)
  | [] => none
  | c :: s =>
    match extinfTryAt (c :: s) with
    | some d => some d
    | none => extinfMatch s

/-- Numeric value of a digit string. -/
def digitsVal : List Char → ℕ
  | [] => 0
  | c :: r => (10 ^ r.length) * (c.toNat - 48) + digitsVal r

/-- Rational addition, written out on numerators and denominators
(`Rat.add` itself is sealed against kernel reduction; `qAdd_eq_add` below
shows this is the same operation). -/
def qAdd (a b : ℚ) : ℚ := mkRat (a.num * b.den + b.num * a.den) (a.den * b.den)

/-- JS `parseFloat` on a string drawn from `[0-9.]+`: longest
`digits [. digits]` prefix read as a decimal numeral; `none` (NaN) when no
digit is read. -/
def parseFloatQ (s : List Char) : Option ℚ :=
  let ip := s.takeWhile Char.isDigit
  match s.drop ip.length with
  | c :: r =>
    if c = '.' then
      let fp := r.takeWhile Char.isDigit
      if ip.length = 0 ∧ fp.length = 0 then none
      else some (mkRat (digitsVal ip * 10 ^ fp.length + digitsVal fp) (10 ^ fp.length))
    else if ip.length = 0 then none else some (mkRat (digitsVal ip) 1)
  | [] => if ip.length = 0 then none else some (mkRat (digitsVal ip) 1)

/-- JS `Math.round`: round half up (floor of the value shifted by one half). -/
def jsRound (q : ℚ) : ℤ := Rat.floor (qAdd q (mkRat 1 2))

/-- Process one manifest line: `NaN`-propagating accumulation of the parsed
`#EXTINF` duration, skipping lines whose pattern does not match. -/
def scanLine (acc : Option ℚ) (l : List Char) : Option ℚ :=
  if startsL extinfHdr l then
    match extinfMatch l with
    | some d =>
      match parseFloatQ d, acc with
      | some v, some a => some (qAdd a v)
      | _, _ => none
    | none => acc
  else acc

/-- The running `totalDuration` over all lines (`none` = `NaN`). -/
def totalDur (t : List Char) : Option ℚ :=
  (splitOnNl t).foldl scanLine (some 0)

/-- The manifest-scanning core of `getVideoDuration`: `Math.round` of the
accumulated duration sum (`none` = `NaN`). -/
def getVideoDurationOfManifest (t : List Char) : Option ℤ :=
  (totalDur t).map jsRound

/-- Does any line of the manifest start with the `#EXTINF:` directive? -/
def hasExtinf (t : List Char) : Bool :=
  (splitOnNl t).any (fun l => startsL extinfHdr l)

/-! ## MP4 container proxy (route `/api/mp4/:filename`)

The route forwards the request (with an optional `Range` header) upstream.
`none` models a transport failure (the `catch` branch, ending in 500);
on a response, `response.ok` (status in `[200, 300)`) decides between
relaying the upstream status with its `content-range` / `accept-ranges`
headers copied verbatim, and a 404. -/

/-- The parts of the upstream response the route reads. -/
structure UpstreamResp where
  status : ℕ
  contentRange : Option String
  acceptRanges : Option String
deriving DecidableEq, Repr

/-- The observable outcome the route sends to the client. -/
inductive Mp4ProxyOut where
  /-- `catch` branch: 500 `Error fetching MP4`. -/
  | upstreamError : Mp4ProxyOut
  /-- `!response.ok` branch: 404 `MP4 not found`. -/
  | notFound : Mp4ProxyOut
  /-- Relay: upstream status, mirrored range headers, piped body. -/
  | relay (status : ℕ) (contentRange : Option String) (acceptRanges : Option String) : Mp4ProxyOut
deriving DecidableEq, Repr

/-- `response.ok`: status in `[200, 300)`. -/
def respOk (s : ℕ) : Bool := decide (200 ≤ s) && decide (s < 300)

/-- The `/api/mp4/:filename` handler as a function of the upstream outcome. -/
def mp4Proxy : Option UpstreamResp → Mp4ProxyOut
  | none => .upstreamError
  | some r => if respOk r.status then .relay r.status r.contentRange r.acceptRanges else .notFound

/-- HTTP status code the client sees. -/
def emittedStatus : Mp4ProxyOut → ℕ
  | .upstreamError => 500
  | .notFound => 404
  | .relay s _ _ => s

/-- `Content-Range` header the client sees. -/
def emittedContentRange : Mp4ProxyOut → Option String
  | .relay _ cr _ => cr
  | _ => none

/-! ## Chat range assembler (route `/api/chat/:videoId/:startTime/:endTime`)

For `t` from `start` to `end` the route fetches the second-`t` shard; a non-ok
or failed fetch contributes nothing.  Each message of shard `t` is stamped
`video_timestamp = t`, all are concatenated in fetch order and finally sorted
by `(video_timestamp, timestamp || 0)` with JS's stable `Array.sort`
(modelled by a stable insertion sort, which computes the same list). -/

/-- A chat message: stamped shard second `vt`, the upstream `timestamp` field
(absent treated as `0` by `a.timestamp || 0`), and an opaque payload id. -/
structure ChatMsg where
  vt : ℤ
  ts : Option ℚ
  pid : ℕ
deriving DecidableEq, Repr

/-- `timestamp || 0`. -/
def tsv (m : ChatMsg) : ℚ := m.ts.getD 0

/-- The sort key order induced by the route's comparator
`(a, b) => a.video_timestamp - b.video_timestamp` with
`(a.timestamp || 0) - (b.timestamp || 0)` as tiebreak. -/
def leKeyB (a b : ChatMsg) : Bool :=
  decide (a.vt < b.vt) || (decide (a.vt = b.vt) && decide (tsv a ≤ tsv b))

/-- The seconds `start, start+1, …, end` visited by the fetch loop
(empty when `end < start`, as the loop guard fails immediately). -/
def secondsList (s e : ℤ) : List ℤ :=
  (List.range (e + 1 - s).toNat).map (fun i => s + i)

/-- Messages contributed by second `t`: the shard's messages stamped with
`video_timestamp = t`, or none at all when the fetch failed / was non-ok. -/
def fetchShard (f : ℤ → Option (List ChatMsg)) (t : ℤ) : List ChatMsg :=
  match f t with
  | some ms => ms.map (fun m => { m with vt := t })
  | none => []

/-- `allMessages` after the fetch loop, in shard arrival order. -/
def collectRange (f : ℤ → Option (List ChatMsg)) : List ℤ → List ChatMsg
  | [] => []
  | t :: r => fetchShard f t ++ collectRange f r

/-- Stable insertion of `x` before the first element it is `leKeyB`-below-or-
equal to (so an earlier arrival precedes later arrivals of equal key). -/
def insM (x : ChatMsg) : List ChatMsg → List ChatMsg
  | [] => [x]
  | y :: r => if leKeyB x y then x :: y :: r else y :: insM x r

/-- Stable insertion sort; extensionally the JS stable `Array.sort` under the
route's comparator. -/
def sortMsgs : List ChatMsg → List ChatMsg
  | [] => []
  | x :: r => insM x (sortMsgs r)

/-- The full chat range assembly. -/
def assembleRange (f : ℤ → Option (List ChatMsg)) (s e : ℤ) : List ChatMsg :=
  sortMsgs (collectRange f (secondsList s e))

/-! ## Metadata reconciliation (`syncMetadata`)

The store is a key→record object, modelled as an insertion-ordered
association list.  For every remote entry whose `indexKey` is not yet bound
locally, a fresh record is created (computing its duration once, via
`getVideoDuration`, modelled by the oracle `durOf`); existing bindings are
never touched and nothing is deleted. -/

/-- One entry of the remote `videos.json` object. -/
structure RemoteEntry where
  vodid : Option String
  title : String
  description : String
  date : String
deriving DecidableEq, Repr

/-- One local metadata record. -/
structure VideoRec where
  vodid : String
  title : String
  description : String
  date : String
  duration : Option ℤ
  lastUpdated : String
deriving DecidableEq, Repr

/-- Association-list lookup (JS `localMetadata[indexKey]`). -/
def lookupA (k : String) : List (String × VideoRec) → Option VideoRec
  | [] => none
  | (k', v) :: r => if k = k' then some v else lookupA k r

/-- JS `videoData.vodid || indexKey` (absent or empty string falls back). -/
def jsOrKey (v : Option String) (k : String) : String :=
  match v with
  | some s => if s = "" then k else s
  | none => k

/-- The record built for a newly discovered video. -/
def mkRec (now : String) (durOf : String → Option ℤ) (k : String) (vd : RemoteEntry) : VideoRec :=
  { vodid := jsOrKey vd.vodid k
    title := vd.title
    description := vd.description
    date := vd.date
    duration := durOf (jsOrKey vd.vodid k)
    lastUpdated := now }

/-- `syncMetadata`: fold remote entries over the local store, adding a record
exactly when the index key is unbound. -/
def syncMetadata (now : String) (durOf : String → Option ℤ)
    (localMd : List (String × VideoRec)) (remote : List (String × RemoteEntry)) :
    List (String × VideoRec) :=
  remote.foldl (fun md kv =>
    if (lookupA kv.1 md).isSome then md
    else md ++ [(kv.1, mkRec now durOf kv.1 kv.2)]) localMd

/-! ## Concrete scenario inputs used by the claims -/

/-- A bare relative container line; rewriting it twice double-prefixes it. -/
def cxIdem : List Char := "part0.mp4".data

/-- A manifest with no container reference (idempotence witness input). -/
def wIdem : List Char := "#EXTM3U\nsegment1.ts\n#EXT-X-ENDLIST".data

/-- A relative `.ts` line that also carries a quoted `.mp4` attribute:
`URI="x.mp4"y.ts`. -/
def cxTsLine : List Char := "URI=".data ++ qc :: "x.mp4".data ++ qc :: "y.ts".data

/-- The spec's rewrite scenario input: `segment1.ts`, `URI="init.mp4"`,
`part0.mp4` on three lines. -/
def scRewrite : List Char :=
  joinNl ["segment1.ts".data, "URI=".data ++ qc :: "init.mp4".data ++ [qc], "part0.mp4".data]

/-- The expected output of the rewrite scenario. -/
def scRewriteOut : List Char :=
  joinNl [tsPfx ++ "segment1.ts".data,
    "URI=".data ++ qc :: "/api/mp4/init.mp4".data ++ [qc],
    "/api/mp4/part0.mp4".data]

/-- A manifest with zero `#EXTINF` duration directives. -/
def scNoExtinf : List Char := "#EXTM3U\n#EXT-X-VERSION:7\n#EXT-X-ENDLIST".data

/-- The spec's duration scenario: directives `4.0`, `4.0`, `2.5`. -/
def scDur : List Char :=
  "#EXTM3U\n#EXTINF:4.0,\nseg1.ts\n#EXTINF:4.0,\nseg2.ts\n#EXTINF:2.5,\nseg3.ts\n#EXT-X-ENDLIST".data

/-- The duration scenario with a malformed (non-numeric) directive value
`abc` inserted; its line fails the pattern and is skipped. -/
def scDurMalformed : List Char :=
  "#EXTM3U\n#EXTINF:4.0,\n#EXTINF:abc,\nseg1.ts\n#EXTINF:4.0,\nseg2.ts\n#EXTINF:2.5,\nseg3.ts".data

/-- A manifest whose second directive value `.` matches `[0-9.]+` but parses
as `NaN`, poisoning the whole sum. -/
def cxDurDot : List Char := "#EXTINF:4.0,\n#EXTINF:.,".data

/-- A single malformed duration directive line (value fails the pattern). -/
def mfLine : List Char := "#EXTINF:abc,".data

/-- Upstream 206 response of the range-passthrough scenario. -/
def r206 : UpstreamResp :=
  { status := 206, contentRange := some "bytes 1000-1999/50000", acceptRanges := some "bytes" }

/-- The chat scenario shards: one message at seconds 41 and 43, a failed
fetch at second 42, nothing elsewhere. -/
def shards4143 : ℤ → Option (List ChatMsg) := fun t =>
  if t = 41 then some [{ vt := 0, ts := some 1, pid := 1 }]
  else if t = 43 then some [{ vt := 0, ts := some 2, pid := 2 }]
  else none

/-- An existing local metadata record. -/
def rec1 : VideoRec :=
  { vodid := "v1", title := "t1", description := "d1", date := "2020",
    duration := some 100, lastUpdated := "ts0" }

/-- Remote entry matching the already-known key. -/
def re1 : RemoteEntry := { vodid := some "v1", title := "t1", description := "d1", date := "2020" }

/-- Remote entry for a newly discovered key. -/
def re2 : RemoteEntry := { vodid := none, title := "t2", description := "d2", date := "2021" }

/-- A duration oracle for the sync scenario. -/
def durOf0 : String → Option ℤ := fun _ => some 5

/-- Local store before the sync scenario. -/
def local0 : List (String × VideoRec) := [("k1", rec1)]

/-- Remote index of the sync scenario. -/
def remote0 : List (String × RemoteEntry) := [("k1", re1), ("k2", re2)]

/-! ## Lemmas: scanning primitives -/

theorem startsL_iff : ∀ (p l : List Char), startsL p l = true ↔ ∃ t, l = p ++ t := by
  intro p
  induction p with
  | nil =>
    intro l
    constructor
    · intro _; exact ⟨l, rfl⟩
    · intro _; rfl
  | cons a ps ih =>
    intro l
    cases l with
    | nil =>
      simp [startsL]
    | cons c cs =>
      rw [startsL, Bool.and_eq_true, decide_eq_true_eq, ih cs]
      constructor
      · rintro ⟨rfl, t, rfl⟩; exact ⟨t, rfl⟩
      · rintro ⟨t, h⟩
        injection h with h1 h2
        exact ⟨h1.symm, t, h2⟩

theorem endsL_iff (p l : List Char) : endsL p l = true ↔ ∃ y, l = y ++ p := by
  rw [endsL, startsL_iff]
  constructor
  · rintro ⟨t, h⟩
    refine ⟨t.reverse, ?_⟩
    have := congrArg List.reverse h
    simpa [List.reverse_append] using this
  · rintro ⟨y, rfl⟩
    exact ⟨y.reverse, by simp [List.reverse_append]⟩

theorem hasSub_iff (p : List Char) : ∀ l, hasSub p l = true ↔ ∃ a b, l = a ++ p ++ b := by
  intro l
  induction l with
  | nil =>
    rw [hasSub, startsL_iff]
    constructor
    · rintro ⟨t, h⟩
      exact ⟨[], t, h⟩
    · rintro ⟨a, b, h⟩
      rw [List.nil_eq, List.append_assoc, List.append_eq_nil] at h
      exact ⟨b, by simp [h.1, h.2]⟩
  | cons c rest ih =>
    rw [hasSub, Bool.or_eq_true, startsL_iff, ih]
    constructor
    · rintro (⟨t, h⟩ | ⟨a, b, h⟩)
      · exact ⟨[], t, by simpa using h⟩
      · exact ⟨c :: a, b, by simp [h]⟩
    · rintro ⟨a, b, h⟩
      cases a with
      | nil => exact Or.inl ⟨b, by simpa using h⟩
      | cons a0 as =>
        injection h with h1 h2
        exact Or.inr ⟨as, b, h2⟩

theorem memB_iff (c : Char) : ∀ l, memB c l = true ↔ c ∈ l := by
  intro l
  induction l with
  | nil => simp [memB]
  | cons d r ih =>
    rw [memB, Bool.or_eq_true, decide_eq_true_eq, ih]
    simp [eq_comm]

theorem startsL_nl (p : List Char) (hp : '\n' ∉ p) :
    ∀ (a b : List Char), startsL p (a ++ '\n' :: b) = startsL p a := by
  induction p with
  | nil => intro a b; rfl
  | cons q ps ih =>
    intro a b
    cases a with
    | nil =>
      have hq : q ≠ '\n' := fun h => hp (h ▸ List.mem_cons_self q ps)
      simp [startsL, hq]
    | cons c as =>
      have hp' : '\n' ∉ ps := fun h => hp (List.mem_cons_of_mem q h)
      simp only [List.cons_append, startsL]
      congr 1
      exact ih hp' as b

theorem takeWhile_stop (q : Char → Bool) :
    ∀ (u v : List Char), (∃ e ∈ u, q e = false) →
      (u ++ v).takeWhile q = u.takeWhile q ∧ (u ++ v).dropWhile q = u.dropWhile q ++ v := by
  intro u
  induction u with
  | nil => rintro v ⟨e, he, -⟩; exact absurd he (List.not_mem_nil e)
  | cons c u' ih =>
    rintro v ⟨e, he, hqe⟩
    cases hq : q c with
    | false => simp [List.takeWhile_cons, List.dropWhile_cons, hq]
    | true =>
      have he' : e ∈ u' := by
        rcases List.mem_cons.mp he with rfl | h
        · exact absurd hq (by simp [hqe])
        · exact h
      have := ih v ⟨e, he', hqe⟩
      simp [List.takeWhile_cons, List.dropWhile_cons, hq, this.1, this.2]

theorem dropWhile_ne_nil (q : Char → Bool) :
    ∀ (u : List Char), (∃ e ∈ u, q e = false) → u.dropWhile q ≠ [] := by
  intro u
  induction u with
  | nil => rintro ⟨e, he, -⟩; exact absurd he (List.not_mem_nil e)
  | cons c u' ih =>
    rintro ⟨e, he, hqe⟩
    cases hq : q c with
    | false => simp [List.dropWhile_cons, hq]
    | true =>
      have he' : e ∈ u' := by
        rcases List.mem_cons.mp he with rfl | h
        · exact absurd hq (by simp [hqe])
        · exact h
      simpa [List.dropWhile_cons, hq] using ih ⟨e, he', hqe⟩

theorem dropWhile_head_false (q : Char → Bool) :
    ∀ (u : List Char) (c : Char) (r : List Char), u.dropWhile q = c :: r → q c = false := by
  intro u
  induction u with
  | nil => intro c r h; exact absurd h (by simp)
  | cons d u' ih =>
    intro c r h
    cases hq : q d with
    | true => exact ih c r (by simpa [List.dropWhile_cons, hq] using h)
    | false =>
      rw [List.dropWhile_cons, if_neg (by simp [hq])] at h
      injection h with h1 _
      exact h1 ▸ hq

theorem drop_of_append (n : ℕ) :
    ∀ (a z : List Char), n ≤ a.length → (a ++ z).drop n = a.drop n ++ z := by
  induction n with
  | zero => intro a z _; simp
  | succ n ih =>
    intro a z h
    cases a with
    | nil => simp at h
    | cons c a' => simpa using ih a' z (by simpa using h)

/-! ## Lemmas: the `URI="…mp4"` global replace -/

theorem uriClosed_head (s : List Char) (hcl : uriClosed s = true)
    (hs : startsL uriOpen s = true) : memB qc (s.drop 5) = true := by
  cases s with
  | nil => exact absurd hs (by decide)
  | cons c s' =>
    rw [uriClosed, Bool.and_eq_true, if_pos hs] at hcl
    exact hcl.1

theorem tryURI_some (s x tail : List Char) (h : tryURI s = some (x, tail)) :
    s = uriOpen ++ x ++ qc :: tail ∧ endsL mp4Ext x = true ∧ 5 ≤ x.length ∧
      startsL uriOpen s = true := by
  by_cases hs : startsL uriOpen s = true
  · obtain ⟨t, rfl⟩ := (startsL_iff uriOpen s).mp hs
    have hdt : (uriOpen ++ t).drop 5 = t := rfl
    simp only [tryURI, hs, if_true, hdt] at h
    split at h
    · exact absurd h (by simp)
    · rename_i d tA hne
      split at h
      · rename_i hc
        have hx1 : t.takeWhile notQuote = x := by
          have := congrArg (fun o => Option.map Prod.fst o) h
          simpa using this
        have hx2 : tA = tail := by
          have := congrArg (fun o => Option.map Prod.snd o) h
          simpa using this
        have hd : notQuote d = false := dropWhile_head_false notQuote t d tA hne
        have hdq : d = qc := by
          simpa [notQuote] using hd
        have ht : t = x ++ qc :: tail := by
          have h2 := List.takeWhile_append_dropWhile (p := notQuote) (l := t)
          rw [hx1, hne, hdq, hx2] at h2
          exact h2.symm
        rw [Bool.and_eq_true, decide_eq_true_eq] at hc
        refine ⟨by rw [ht, List.append_assoc], ?_, ?_, hs⟩
        · rw [← hx1]; exact hc.1
        · rw [← hx1]; exact hc.2
      · exact absurd h (by simp)
  · simp only [tryURI, if_neg hs] at h
    exact absurd h (by simp)

theorem tryURI_len (s x tail : List Char) (h : tryURI s = some (x, tail)) :
    tail.length + 6 ≤ s.length := by
  obtain ⟨hdec, -, hx5, -⟩ := tryURI_some s x tail h
  rw [hdec]
  simp only [List.length_append, List.length_cons]
  have h5 : uriOpen.length = 5 := by decide
  omega

theorem tryURI_split (a b : List Char) (hnl : '\n' ∉ a) (hcl : uriClosed a = true) :
    tryURI (a ++ '\n' :: b) = (tryURI a).map (fun xt => (xt.1, xt.2 ++ '\n' :: b)) := by
  have hO : '\n' ∉ uriOpen := by decide
  have hstart : startsL uriOpen (a ++ '\n' :: b) = startsL uriOpen a := startsL_nl uriOpen hO a b
  cases hsa : startsL uriOpen a with
  | false =>
    rw [hsa] at hstart
    simp only [tryURI, hstart, hsa, Bool.false_eq_true, if_false, Option.map_none']
  | true =>
    rw [hsa] at hstart
    have hq5 : memB qc (a.drop 5) = true := uriClosed_head a hcl hsa
    obtain ⟨t, rfl⟩ := (startsL_iff uriOpen a).mp hsa
    have hdt : (uriOpen ++ t).drop 5 = t := rfl
    rw [hdt] at hq5
    have hqt : qc ∈ t := (memB_iff qc t).mp hq5
    have hstop : ∃ e ∈ t, notQuote e = false := ⟨qc, hqt, by simp [notQuote]⟩
    have hdrops : ((uriOpen ++ t) ++ '\n' :: b).drop 5 = t ++ '\n' :: b := by
      rw [List.append_assoc]
      exact rfl
    have htw := (takeWhile_stop notQuote t ('\n' :: b) hstop).1
    have hdw := (takeWhile_stop notQuote t ('\n' :: b) hstop).2
    rcases hne : t.dropWhile notQuote with _ | ⟨d, tA⟩
    · exact absurd hne (dropWhile_ne_nil notQuote t hstop)
    · rw [hne] at hdw
      simp only [tryURI, hstart, hsa, if_true, hdrops, hdt, htw, hdw, hne, List.cons_append]
      cases hc : endsL mp4Ext (t.takeWhile notQuote) && decide (5 ≤ (t.takeWhile notQuote).length) with
      | true => simp [hc]
      | false => simp [hc]

theorem r2Go_succ : ∀ (f : ℕ) (s : List Char), s.length ≤ f → r2Go (f + 1) s = r2Go f s := by
  intro f
  induction f with
  | zero =>
    intro s hs
    have : s = [] := List.eq_nil_of_length_eq_zero (Nat.le_zero.mp hs)
    subst this
    rfl
  | succ f ih =>
    intro s hs
    cases s with
    | nil => rfl
    | cons c s' =>
      show (match tryURI (c :: s') with
        | some (x, tail) => uriNew ++ x ++ qc :: r2Go (f + 1) tail
        | none => c :: r2Go (f + 1) s') =
        (match tryURI (c :: s') with
        | some (x, tail) => uriNew ++ x ++ qc :: r2Go f tail
        | none => c :: r2Go f s')
      cases htry : tryURI (c :: s') with
      | some xt =>
        obtain ⟨x, tail⟩ := xt
        have hlen := tryURI_len (c :: s') x tail htry
        simp only [List.length_cons] at hlen hs
        show uriNew ++ x ++ qc :: r2Go (f + 1) tail = uriNew ++ x ++ qc :: r2Go f tail
        rw [ih tail (by omega)]
      | none =>
        show c :: r2Go (f + 1) s' = c :: r2Go f s'
        rw [ih s' (by simpa using hs)]

theorem r2Go_of_le : ∀ (f : ℕ) (s : List Char), s.length ≤ f → r2Go f s = r2 s := by
  intro f s h
  rw [r2]
  obtain ⟨k, rfl⟩ := Nat.exists_eq_add_of_le h
  clear h
  induction k with
  | zero => rfl
  | succ k ih =>
    have : s.length + (k + 1) = (s.length + k) + 1 := by omega
    rw [this, r2Go_succ (s.length + k) s (by omega), ih]

theorem r2_cons (c : Char) (s : List Char) :
    r2 (c :: s) =
      match tryURI (c :: s) with
      | some (x, tail) => uriNew ++ x ++ qc :: r2 tail
      | none => c :: r2 s := by
  show (match tryURI (c :: s) with
    | some (x, tail) => uriNew ++ x ++ qc :: r2Go s.length tail
    | none => c :: r2Go s.length s) = _
  cases htry : tryURI (c :: s) with
  | some xt =>
    obtain ⟨x, tail⟩ := xt
    have hlen := tryURI_len (c :: s) x tail htry
    simp only [List.length_cons] at hlen
    show uriNew ++ x ++ qc :: r2Go s.length tail = uriNew ++ x ++ qc :: r2 tail
    rw [r2Go_of_le s.length tail (by omega)]
  | none =>
    show c :: r2Go s.length s = c :: r2 s
    rw [r2Go_of_le s.length s (by omega)]

theorem uriClosed_peel : ∀ (u v : List Char), uriClosed (u ++ v) = true → uriClosed v = true := by
  intro u
  induction u with
  | nil => intro v h; exact h
  | cons c u' ih =>
    intro v h
    rw [List.cons_append, uriClosed, Bool.and_eq_true] at h
    exact ih v h.2

theorem r2_id_of_noUri : ∀ (s : List Char), hasSub uriOpen s = false → r2 s = s := by
  intro s
  induction s with
  | nil => intro h; rfl
  | cons c s' ih =>
    intro h
    rw [hasSub, Bool.or_eq_false_iff] at h
    rw [r2_cons]
    cases htry : tryURI (c :: s') with
    | some xt =>
      obtain ⟨x, tail⟩ := xt
      have := (tryURI_some (c :: s') x tail htry).2.2.2
      rw [h.1] at this
      exact absurd this (by simp)
    | none =>
      show c :: r2 s' = c :: s'
      rw [ih h.2]

theorem r2_id_of_noMp4 : ∀ (s : List Char), hasSub mp4Ext s = false → r2 s = s := by
  intro s
  induction s with
  | nil => intro h; rfl
  | cons c s' ih =>
    intro h
    rw [r2_cons]
    cases htry : tryURI (c :: s') with
    | some xt =>
      obtain ⟨x, tail⟩ := xt
      obtain ⟨hdec, hend, -, -⟩ := tryURI_some (c :: s') x tail htry
      obtain ⟨y, rfl⟩ := (endsL_iff mp4Ext x).mp hend
      have : hasSub mp4Ext (c :: s') = true := by
        rw [hasSub_iff]
        refine ⟨uriOpen ++ y, qc :: tail, ?_⟩
        rw [hdec]
        simp [List.append_assoc]
      rw [this] at h
      exact absurd h (by simp)
    | none =>
      show c :: r2 s' = c :: s'
      have h' : hasSub mp4Ext s' = false := by
        rw [hasSub, Bool.or_eq_false_iff] at h
        exact h.2
      rw [ih h']

theorem r2_split_aux : ∀ (n : ℕ) (a b : List Char), a.length ≤ n → '\n' ∉ a →
    uriClosed a = true → r2 (a ++ '\n' :: b) = r2 a ++ '\n' :: r2 b := by
  intro n
  induction n with
  | zero =>
    intro a b ha _ _
    have : a = [] := List.eq_nil_of_length_eq_zero (Nat.le_zero.mp ha)
    subst this
    rw [List.nil_append, r2_cons]
    have hnone : tryURI ('\n' :: b) = none := by
      have hfalse : startsL uriOpen ('\n' :: b) = false := rfl
      simp only [tryURI, hfalse, Bool.false_eq_true, if_false]
    rw [hnone]
    rfl
  | succ n ih =>
    intro a b ha hnl hcl
    cases a with
    | nil =>
      rw [List.nil_append, r2_cons]
      have hnone : tryURI ('\n' :: b) = none := by
        have hfalse : startsL uriOpen ('\n' :: b) = false := rfl
        simp only [tryURI, hfalse, Bool.false_eq_true, if_false]
      rw [hnone]
      rfl
    | cons c a' =>
      have hsplitTry := tryURI_split (c :: a') b hnl hcl
      rw [List.cons_append, r2_cons]
      have hback : c :: (a' ++ '\n' :: b) = (c :: a') ++ '\n' :: b := rfl
      rw [hback, hsplitTry]
      cases htry : tryURI (c :: a') with
      | some xt =>
        obtain ⟨x, tA⟩ := xt
        obtain ⟨hdec, -, -, -⟩ := tryURI_some (c :: a') x tA htry
        have hlen := tryURI_len (c :: a') x tA htry
        simp only [List.length_cons] at hlen ha
        have htAnl : '\n' ∉ tA := by
          intro hmem
          exact hnl (by rw [hdec]; simp [hmem])
        have htAcl : uriClosed tA = true := by
          have hre : (c :: a') = (uriOpen ++ x ++ [qc]) ++ tA := by
            rw [hdec]; simp
          rw [hre] at hcl
          exact uriClosed_peel _ tA hcl
        rw [r2_cons c a', htry]
        simp only [Option.map_some']
        show uriNew ++ x ++ qc :: r2 (tA ++ '\n' :: b) =
          (uriNew ++ x ++ qc :: r2 tA) ++ '\n' :: r2 b
        rw [ih tA b (by omega) htAnl htAcl]
        simp
      | none =>
        have ha' : '\n' ∉ a' := fun hmem => hnl (List.mem_cons_of_mem c hmem)
        have hcl' : uriClosed a' = true := by
          rw [uriClosed, Bool.and_eq_true] at hcl
          exact hcl.2
        simp only [List.length_cons] at ha
        rw [r2_cons c a', htry]
        simp only [Option.map_none']
        show c :: r2 (a' ++ '\n' :: b) = (c :: r2 a') ++ '\n' :: r2 b
        rw [ih a' b (by omega) ha' hcl']
        rfl

theorem r2_split (a b : List Char) (hnl : '\n' ∉ a) (hcl : uriClosed a = true) :
    r2 (a ++ '\n' :: b) = r2 a ++ '\n' :: r2 b :=
  r2_split_aux a.length a b le_rfl hnl hcl

theorem r2_joinNl : ∀ (ls : List (List Char)),
    (∀ l ∈ ls, '\n' ∉ l ∧ uriClosed l = true) →
    r2 (joinNl ls) = joinNl (ls.map r2) := by
  intro ls
  induction ls with
  | nil => intro _; rfl
  | cons l ls ih =>
    intro h
    cases ls with
    | nil => rfl
    | cons l2 ls2 =>
      have hl := h l (List.mem_cons_self l _)
      show r2 (l ++ '\n' :: joinNl (l2 :: ls2)) = r2 l ++ '\n' :: joinNl ((l2 :: ls2).map r2)
      rw [r2_split l _ hl.1 hl.2, ih (fun x hx => h x (List.mem_cons_of_mem l hx))]

/-! ## Lemmas: line splitting and joining -/

theorem splitOnNl_ne_nil : ∀ (t : List Char), splitOnNl t ≠ [] := by
  intro t
  cases t with
  | nil => simp [splitOnNl]
  | cons c s =>
    rw [splitOnNl]
    by_cases hc : c = '\n'
    · simp [hc]
    · rw [if_neg hc]
      cases splitOnNl s <;> simp

theorem joinNl_splitOnNl : ∀ (t : List Char), joinNl (splitOnNl t) = t := by
  intro t
  induction t with
  | nil => rfl
  | cons c s ih =>
    rw [splitOnNl]
    by_cases hc : c = '\n'
    · subst hc
      rw [if_pos rfl]
      rcases hs : splitOnNl s with _ | ⟨l, ls⟩
      · exact absurd hs (splitOnNl_ne_nil s)
      · show [] ++ '\n' :: joinNl (l :: ls) = '\n' :: s
        rw [← hs, ih]
        rfl
    · rw [if_neg hc]
      rcases hs : splitOnNl s with _ | ⟨l, ls⟩
      · exact absurd hs (splitOnNl_ne_nil s)
      · cases ls with
        | nil =>
          show c :: l = c :: s
          have := ih
          rw [hs] at this
          show c :: l = c :: s
          rw [show joinNl [l] = l from rfl] at this
          rw [this]
        | cons l2 ls2 =>
          show (c :: l) ++ '\n' :: joinNl (l2 :: ls2) = c :: s
          have := ih
          rw [hs] at this
          show c :: (l ++ '\n' :: joinNl (l2 :: ls2)) = c :: s
          rw [show joinNl (l :: l2 :: ls2) = l ++ '\n' :: joinNl (l2 :: ls2) from rfl] at this
          rw [this]

theorem splitOnNl_no_nl : ∀ (t : List Char) (l : List Char), l ∈ splitOnNl t → '\n' ∉ l := by
  intro t
  induction t with
  | nil =>
    intro l hl
    simp [splitOnNl] at hl
    simp [hl]
  | cons c s ih =>
    intro l hl
    rw [splitOnNl] at hl
    by_cases hc : c = '\n'
    · rw [if_pos hc] at hl
      rcases List.mem_cons.mp hl with rfl | h
      · simp
      · exact ih l h
    · rw [if_neg hc] at hl
      rcases hs : splitOnNl s with _ | ⟨l0, ls⟩
      · exact absurd hs (splitOnNl_ne_nil s)
      · rw [hs] at hl
        rcases List.mem_cons.mp hl with rfl | h
        · intro hmem
          rcases List.mem_cons.mp hmem with h1 | h1
          · exact hc h1.symm
          · exact ih l0 (hs ▸ List.mem_cons_self l0 ls) h1
        · exact ih l (hs ▸ List.mem_cons_of_mem l0 h)

theorem splitOnNl_of_no_nl : ∀ (l : List Char), '\n' ∉ l → splitOnNl l = [l] := by
  intro l
  induction l with
  | nil => intro _; rfl
  | cons c s ih =>
    intro h
    have hc : ¬(c = '\n') := fun hh => h (hh ▸ List.mem_cons_self c s)
    rw [splitOnNl, if_neg hc, ih (fun hm => h (List.mem_cons_of_mem c hm))]

theorem splitOnNl_append_nl (a b : List Char) (ha : '\n' ∉ a) :
    splitOnNl (a ++ '\n' :: b) = a :: splitOnNl b := by
  induction a with
  | nil => simp [splitOnNl]
  | cons c a' ih =>
    have hc : ¬(c = '\n') := fun hh => ha (hh ▸ List.mem_cons_self c a')
    rw [List.cons_append, splitOnNl, if_neg hc,
      ih (fun hm => ha (List.mem_cons_of_mem c hm))]

theorem splitOnNl_joinNl : ∀ (ls : List (List Char)), ls ≠ [] →
    (∀ l ∈ ls, '\n' ∉ l) → splitOnNl (joinNl ls) = ls := by
  intro ls
  induction ls with
  | nil => intro h _; exact absurd rfl h
  | cons l ls ih =>
    intro _ hnl
    cases ls with
    | nil =>
      show splitOnNl (joinNl [l]) = [l]
      rw [show joinNl [l] = l from rfl]
      exact splitOnNl_of_no_nl l (hnl l (List.mem_cons_self l _))
    | cons l2 ls2 =>
      show splitOnNl (l ++ '\n' :: joinNl (l2 :: ls2)) = l :: l2 :: ls2
      rw [splitOnNl_append_nl l _ (hnl l (List.mem_cons_self l _)),
        ih (by simp) (fun x hx => hnl x (List.mem_cons_of_mem l hx))]

theorem r2_count_aux : ∀ (n : ℕ) (s : List Char), s.length ≤ n →
    (r2 s).count '\n' = s.count '\n' := by
  intro n
  induction n with
  | zero =>
    intro s hs
    have : s = [] := List.eq_nil_of_length_eq_zero (Nat.le_zero.mp hs)
    subst this
    rfl
  | succ n ih =>
    intro s hs
    cases s with
    | nil => rfl
    | cons c s' =>
      rw [r2_cons]
      cases htry : tryURI (c :: s') with
      | some xt =>
        obtain ⟨x, tail⟩ := xt
        obtain ⟨hdec, -, -, -⟩ := tryURI_some (c :: s') x tail htry
        have hlen := tryURI_len (c :: s') x tail htry
        simp only [List.length_cons] at hlen hs
        show (uriNew ++ x ++ qc :: r2 tail).count '\n' = (c :: s').count '\n'
        rw [hdec]
        have hUNew : uriNew.count '\n' = 0 := by decide
        have hUOpen : uriOpen.count '\n' = 0 := by decide
        simp only [List.count_append, List.count_cons, hUNew, hUOpen,
          ih tail (by omega)]
      | none =>
        show (c :: r2 s').count '\n' = (c :: s').count '\n'
        simp only [List.count_cons, ih s' (by simpa using hs)]

theorem r2_count (s : List Char) : (r2 s).count '\n' = s.count '\n' :=
  r2_count_aux s.length s le_rfl

theorem joinNl_count : ∀ (ls : List (List Char)), (∀ l ∈ ls, '\n' ∉ l) →
    (joinNl ls).count '\n' = ls.length - 1 := by
  intro ls
  induction ls with
  | nil => intro _; rfl
  | cons l ls ih =>
    intro h
    cases ls with
    | nil =>
      show l.count '\n' = 0
      exact List.count_eq_zero.mpr (h l (List.mem_cons_self l _))
    | cons l2 ls2 =>
      show (l ++ '\n' :: joinNl (l2 :: ls2)).count '\n' = (l2 :: ls2).length + 1 - 1
      rw [List.count_append, List.count_cons,
        List.count_eq_zero.mpr (h l (List.mem_cons_self l _)),
        ih (fun x hx => h x (List.mem_cons_of_mem l hx))]
      simp

theorem splitOnNl_length : ∀ (t : List Char),
    (splitOnNl t).length = t.count '\n' + 1 := by
  intro t
  induction t with
  | nil => rfl
  | cons c s ih =>
    rw [splitOnNl]
    by_cases hc : c = '\n'
    · subst hc
      rw [if_pos rfl]
      simp [List.count_cons, ih]
    · rw [if_neg hc]
      rcases hs : splitOnNl s with _ | ⟨l, ls⟩
      · exact absurd hs (splitOnNl_ne_nil s)
      · have : (c :: s).count '\n' = s.count '\n' := by
          simp [List.count_cons, hc]
        rw [this, ← ih, hs]
        rfl

theorem hasSub_append_nl (p : List Char) (hne : p ≠ []) (hnl : '\n' ∉ p) :
    ∀ (a b : List Char), hasSub p (a ++ '\n' :: b) = (hasSub p a || hasSub p b) := by
  intro a
  induction a with
  | nil =>
    intro b
    rcases p with _ | ⟨q, ps⟩
    · exact absurd rfl hne
    · have hq : ¬(q = '\n') := fun h => hnl (h ▸ List.mem_cons_self q ps)
      simp [hasSub, startsL, hq]
  | cons c a' ih =>
    intro b
    rw [List.cons_append, hasSub, ih b, hasSub,
      show c :: (a' ++ '\n' :: b) = (c :: a') ++ '\n' :: b from rfl,
      startsL_nl p hnl (c :: a') b]
    cases startsL p (c :: a') <;> simp

theorem hasSub_joinNl_false (p : List Char) (hne : p ≠ []) (hnl : '\n' ∉ p) :
    ∀ (ls : List (List Char)),
      hasSub p (joinNl ls) = false ↔ ∀ l ∈ ls, hasSub p l = false := by
  intro ls
  induction ls with
  | nil =>
    constructor
    · intro _ l hl; exact absurd hl (List.not_mem_nil l)
    · intro _
      rcases p with _ | ⟨q, ps⟩
      · exact absurd rfl hne
      · rfl
  | cons l ls ih =>
    cases ls with
    | nil =>
      constructor
      · intro h x hx
        rcases List.mem_cons.mp hx with rfl | hx'
        · exact h
        · exact absurd hx' (List.not_mem_nil x)
      · intro h; exact h l (List.mem_cons_self l _)
    | cons l2 ls2 =>
      rw [show joinNl (l :: l2 :: ls2) = l ++ '\n' :: joinNl (l2 :: ls2) from rfl,
        hasSub_append_nl p hne hnl, Bool.or_eq_false_iff]
      constructor
      · rintro ⟨h1, h2⟩ x hx
        rcases List.mem_cons.mp hx with rfl | hx'
        · exact h1
        · exact ih.mp h2 x hx'
      · intro h
        exact ⟨h l (List.mem_cons_self l _),
          ih.mpr (fun x hx => h x (List.mem_cons_of_mem l hx))⟩

/-! ## Lemmas: per-line behavior of the three replace steps -/

theorem tsPfx_mp4_red (l : List Char) : hasSub mp4Ext (tsPfx ++ l) = hasSub mp4Ext l := rfl

theorem tsPfx_uri_red (l : List Char) : hasSub uriOpen (tsPfx ++ l) = hasSub uriOpen l := rfl

theorem tsPfx_uriClosed_red (l : List Char) : uriClosed (tsPfx ++ l) = uriClosed l := rfl

theorem tsPfx_abs (l : List Char) : isAbs (tsPfx ++ l) = true := by
  have : startsL "https://".data (tsPfx ++ l) = true := rfl
  rw [isAbs, this]
  simp

theorem mp4Pfx_no_nl : ('\n' : Char) ∉ mp4Pfx := by decide

theorem tsPfx_no_nl : ('\n' : Char) ∉ tsPfx := by decide

theorem r1Line_no_nl (l : List Char) (h : '\n' ∉ l) : '\n' ∉ r1Line l := by
  rw [r1Line]
  by_cases hm : tsLineMatch l = true
  · rw [if_pos hm]
    intro hmem
    rcases List.mem_append.mp hmem with h1 | h1
    · exact tsPfx_no_nl h1
    · exact h h1
  · rw [if_neg hm]; exact h

theorem r1Line_uriClosed (l : List Char) : uriClosed (r1Line l) = uriClosed l := by
  rw [r1Line]
  by_cases hm : tsLineMatch l = true
  · rw [if_pos hm, tsPfx_uriClosed_red]
  · rw [if_neg hm]

theorem r1Line_mp4 (l : List Char) : hasSub mp4Ext (r1Line l) = hasSub mp4Ext l := by
  rw [r1Line]
  by_cases hm : tsLineMatch l = true
  · rw [if_pos hm, tsPfx_mp4_red]
  · rw [if_neg hm]

theorem r1Line_uri (l : List Char) : hasSub uriOpen (r1Line l) = hasSub uriOpen l := by
  rw [r1Line]
  by_cases hm : tsLineMatch l = true
  · rw [if_pos hm, tsPfx_uri_red]
  · rw [if_neg hm]

theorem abs_no_tsMatch (l : List Char) (h : isAbs l = true) :
    tsLineMatch l = false ∧ mp4LineMatch l = false := by
  rw [tsLineMatch, mp4LineMatch, h]
  simp

theorem hash_no_tsMatch (l : List Char) (h : isHash l = true) :
    tsLineMatch l = false ∧ mp4LineMatch l = false := by
  rw [tsLineMatch, mp4LineMatch, h]
  simp

theorem mp4_no_tsMatch (l : List Char) (h : endsL mp4Ext l = true) :
    endsL tsExt l = false := by
  obtain ⟨y, rfl⟩ := (endsL_iff mp4Ext l).mp h
  rw [endsL, List.reverse_append]
  rfl

theorem r1Line_idem (l : List Char) : r1Line (r1Line l) = r1Line l := by
  by_cases hm : tsLineMatch l = true
  · have h1 : r1Line l = tsPfx ++ l := by rw [r1Line, if_pos hm]
    rw [h1, r1Line, if_neg (by rw [(abs_no_tsMatch _ (tsPfx_abs l)).1]; simp)]
  · have h1 : r1Line l = l := by rw [r1Line, if_neg hm]
    rw [h1, h1]

theorem r3Line_of_noMp4 (l : List Char) (h : hasSub mp4Ext l = false) : r3Line l = l := by
  rw [r3Line, if_neg]
  intro hm
  rw [mp4LineMatch] at hm
  simp only [Bool.and_eq_true] at hm
  obtain ⟨y, rfl⟩ := (endsL_iff mp4Ext l).mp hm.1.2
  have : hasSub mp4Ext (y ++ mp4Ext) = true := by
    rw [hasSub_iff]
    exact ⟨y, [], by simp⟩
  rw [this] at h
  exact absurd h (by simp)

theorem r3Line_abs (l : List Char) (h : isAbs l = true) : r3Line l = l := by
  rw [r3Line, if_neg (by rw [(abs_no_tsMatch l h).2]; simp)]

theorem r1Line_abs (l : List Char) (h : isAbs l = true) : r1Line l = l := by
  rw [r1Line, if_neg (by rw [(abs_no_tsMatch l h).1]; simp)]

theorem r1Line_hash (l : List Char) (h : isHash l = true) : r1Line l = l := by
  rw [r1Line, if_neg (by rw [(hash_no_tsMatch l h).1]; simp)]

theorem r2_hash (l : List Char) (h : isHash l = true) : isHash (r2 l) = true := by
  obtain ⟨t, rfl⟩ := (startsL_iff ['#'] l).mp h
  rw [show ['#'] ++ t = '#' :: t from rfl, r2_cons]
  have hnone : tryURI ('#' :: t) = none := by
    have hfalse : startsL uriOpen ('#' :: t) = false := rfl
    simp only [tryURI, hfalse, Bool.false_eq_true, if_false]
  rw [hnone]
  rfl

theorem r3Line_hash (l : List Char) (h : isHash l = true) : r3Line l = l := by
  rw [r3Line, if_neg (by rw [(hash_no_tsMatch l h).2]; simp)]

theorem r2_no_nl (u : List Char) (h : '\n' ∉ u) : '\n' ∉ r2 u := by
  rw [← List.count_eq_zero] at h ⊢
  rw [r2_count, h]

theorem r3Line_no_nl (l : List Char) (h : '\n' ∉ l) : '\n' ∉ r3Line l := by
  rw [r3Line]
  by_cases hm : mp4LineMatch l = true
  · rw [if_pos hm]
    intro hmem
    rcases List.mem_append.mp hmem with h1 | h1
    · exact mp4Pfx_no_nl h1
    · exact h h1
  · rw [if_neg hm]; exact h

theorem mapLines_count (f : List Char → List Char)
    (hf : ∀ l, '\n' ∉ l → '\n' ∉ f l) (t : List Char) :
    (mapLines f t).count '\n' = t.count '\n' := by
  rw [mapLines, joinNl_count]
  · rw [List.length_map, splitOnNl_length]
    omega
  · intro x hx
    obtain ⟨l, hl, rfl⟩ := List.mem_map.mp hx
    exact hf l (splitOnNl_no_nl t l hl)

theorem rewrite_count (t : List Char) :
    (rewriteChars t).count '\n' = t.count '\n' := by
  rw [rewriteChars, mapLines_count r3Line r3Line_no_nl, r2_count,
    mapLines_count r1Line r1Line_no_nl]

theorem rewrite_lines (t : List Char) (hcl : ∀ l ∈ splitOnNl t, uriClosed l = true) :
    splitOnNl (rewriteChars t) = (splitOnNl t).map (fun l => r3Line (r2 (r1Line l))) := by
  have hmem : ∀ l ∈ splitOnNl t, '\n' ∉ l := splitOnNl_no_nl t
  have hnl1 : ∀ x ∈ (splitOnNl t).map r1Line, '\n' ∉ x ∧ uriClosed x = true := by
    intro x hx
    obtain ⟨l, hl, rfl⟩ := List.mem_map.mp hx
    exact ⟨r1Line_no_nl l (hmem l hl), by rw [r1Line_uriClosed]; exact hcl l hl⟩
  have h2 : r2 (mapLines r1Line t) = joinNl (((splitOnNl t).map r1Line).map r2) := by
    rw [mapLines]
    exact r2_joinNl _ hnl1
  have hnl2 : ∀ x ∈ ((splitOnNl t).map r1Line).map r2, '\n' ∉ x := by
    intro x hx
    obtain ⟨l, hl, rfl⟩ := List.mem_map.mp hx
    exact r2_no_nl l (hnl1 l hl).1
  have hne2 : ((splitOnNl t).map r1Line).map r2 ≠ [] := by
    intro hnil
    rcases List.map_eq_nil_iff.mp (List.map_eq_nil_iff.mp hnil) with h0
    exact splitOnNl_ne_nil t h0
  have hnl3 : ∀ x ∈ (((splitOnNl t).map r1Line).map r2).map r3Line, '\n' ∉ x := by
    intro x hx
    obtain ⟨l, hl, rfl⟩ := List.mem_map.mp hx
    exact r3Line_no_nl l (hnl2 l hl)
  have hne3 : (((splitOnNl t).map r1Line).map r2).map r3Line ≠ [] := by
    intro hnil
    exact hne2 (List.map_eq_nil_iff.mp hnil)
  rw [rewriteChars, h2, mapLines, splitOnNl_joinNl _ hne2 hnl2,
    splitOnNl_joinNl _ hne3 hnl3, List.map_map, List.map_map]
  rfl

theorem rewrite_of_noMp4 (t : List Char) (h : hasSub mp4Ext t = false) :
    rewriteChars t = mapLines r1Line t := by
  have hpne : mp4Ext ≠ [] := by decide
  have hpnl : '\n' ∉ mp4Ext := by decide
  have hmem : ∀ l ∈ splitOnNl t, '\n' ∉ l := splitOnNl_no_nl t
  have hlines : ∀ l ∈ splitOnNl t, hasSub mp4Ext l = false := by
    have hj := (hasSub_joinNl_false mp4Ext hpne hpnl (splitOnNl t)).mp
    rw [joinNl_splitOnNl] at hj
    exact hj h
  have hnl1 : ∀ x ∈ (splitOnNl t).map r1Line, '\n' ∉ x := by
    intro x hx
    obtain ⟨l, hl, rfl⟩ := List.mem_map.mp hx
    exact r1Line_no_nl l (hmem l hl)
  have hmp1 : ∀ x ∈ (splitOnNl t).map r1Line, hasSub mp4Ext x = false := by
    intro x hx
    obtain ⟨l, hl, rfl⟩ := List.mem_map.mp hx
    rw [r1Line_mp4]
    exact hlines l hl
  have ht1 : hasSub mp4Ext (mapLines r1Line t) = false := by
    rw [mapLines]
    exact (hasSub_joinNl_false mp4Ext hpne hpnl _).mpr hmp1
  have hne1 : (splitOnNl t).map r1Line ≠ [] := by
    intro hnil
    exact splitOnNl_ne_nil t (List.map_eq_nil_iff.mp hnil)
  have hmap3 : ((splitOnNl t).map r1Line).map r3Line = (splitOnNl t).map r1Line := by
    rw [List.map_map]
    refine List.map_congr_left ?_
    intro l hl
    show r3Line (r1Line l) = r1Line l
    exact r3Line_of_noMp4 _ (by rw [r1Line_mp4]; exact hlines l hl)
  calc rewriteChars t
      = mapLines r3Line (r2 (mapLines r1Line t)) := rfl
    _ = mapLines r3Line (mapLines r1Line t) := by rw [r2_id_of_noMp4 _ ht1]
    _ = joinNl ((splitOnNl (joinNl ((splitOnNl t).map r1Line))).map r3Line) := rfl
    _ = joinNl (((splitOnNl t).map r1Line).map r3Line) := by
          rw [splitOnNl_joinNl _ hne1 hnl1]
    _ = joinNl ((splitOnNl t).map r1Line) := by rw [hmap3]
    _ = mapLines r1Line t := rfl

theorem rewrite_idem_core (t : List Char) (h : hasSub mp4Ext t = false) :
    rewriteChars (rewriteChars t) = rewriteChars t := by
  have hpne : mp4Ext ≠ [] := by decide
  have hpnl : '\n' ∉ mp4Ext := by decide
  have hmem : ∀ l ∈ splitOnNl t, '\n' ∉ l := splitOnNl_no_nl t
  have hlines : ∀ l ∈ splitOnNl t, hasSub mp4Ext l = false := by
    have hj := (hasSub_joinNl_false mp4Ext hpne hpnl (splitOnNl t)).mp
    rw [joinNl_splitOnNl] at hj
    exact hj h
  have hnl1 : ∀ x ∈ (splitOnNl t).map r1Line, '\n' ∉ x := by
    intro x hx
    obtain ⟨l, hl, rfl⟩ := List.mem_map.mp hx
    exact r1Line_no_nl l (hmem l hl)
  have hmp1 : ∀ x ∈ (splitOnNl t).map r1Line, hasSub mp4Ext x = false := by
    intro x hx
    obtain ⟨l, hl, rfl⟩ := List.mem_map.mp hx
    rw [r1Line_mp4]
    exact hlines l hl
  have ht1 : hasSub mp4Ext (mapLines r1Line t) = false := by
    rw [mapLines]
    exact (hasSub_joinNl_false mp4Ext hpne hpnl _).mpr hmp1
  have hne1 : (splitOnNl t).map r1Line ≠ [] := by
    intro hnil
    exact splitOnNl_ne_nil t (List.map_eq_nil_iff.mp hnil)
  have hmap1 : ((splitOnNl t).map r1Line).map r1Line = (splitOnNl t).map r1Line := by
    rw [List.map_map]
    refine List.map_congr_left ?_
    intro l hl
    exact r1Line_idem l
  rw [rewrite_of_noMp4 t h, rewrite_of_noMp4 _ ht1]
  calc mapLines r1Line (mapLines r1Line t)
      = joinNl ((splitOnNl (joinNl ((splitOnNl t).map r1Line))).map r1Line) := rfl
    _ = joinNl (((splitOnNl t).map r1Line).map r1Line) := by
          rw [splitOnNl_joinNl _ hne1 hnl1]
    _ = joinNl ((splitOnNl t).map r1Line) := by rw [hmap1]
    _ = mapLines r1Line t := rfl

theorem comp_ts_line (l : List Char) (hts : tsLineMatch l = true)
    (hnu : hasSub uriOpen l = false) : r3Line (r2 (r1Line l)) = tsPfx ++ l := by
  have h1 : r1Line l = tsPfx ++ l := by rw [r1Line, if_pos hts]
  have h2 : r2 (tsPfx ++ l) = tsPfx ++ l := by
    refine r2_id_of_noUri _ ?_
    rw [tsPfx_uri_red]
    exact hnu
  rw [h1, h2]
  exact r3Line_abs _ (tsPfx_abs l)

theorem comp_mp4_line (l : List Char) (hmp : mp4LineMatch l = true)
    (hnu : hasSub uriOpen l = false) : r3Line (r2 (r1Line l)) = mp4Pfx ++ l := by
  have hts : tsLineMatch l = false := by
    rw [mp4LineMatch] at hmp
    simp only [Bool.and_eq_true] at hmp
    rw [tsLineMatch, mp4_no_tsMatch l hmp.1.2]
    simp
  have h1 : r1Line l = l := by rw [r1Line, if_neg (by rw [hts]; simp)]
  rw [h1, r2_id_of_noUri _ hnu, r3Line, if_pos hmp]

theorem comp_abs_line (l : List Char) (habs : isAbs l = true)
    (hnu : hasSub uriOpen l = false) : r3Line (r2 (r1Line l)) = l := by
  rw [r1Line_abs l habs, r2_id_of_noUri _ hnu, r3Line_abs l habs]

theorem comp_hash_line (l : List Char) (hh : isHash l = true) :
    r3Line (r2 (r1Line l)) = r2 l := by
  rw [r1Line_hash l hh, r3Line_hash _ (r2_hash l hh)]

/-! ## Lemmas: duration extractor -/

theorem qAdd_eq_add (a b : ℚ) : qAdd a b = a + b := by
  have hda : (a.den : ℚ) ≠ 0 := Nat.cast_ne_zero.mpr a.den_nz
  have hdb : (b.den : ℚ) ≠ 0 := Nat.cast_ne_zero.mpr b.den_nz
  rw [qAdd, Rat.mkRat_eq_div]
  push_cast
  conv_rhs => rw [← Rat.num_div_den a, ← Rat.num_div_den b]
  field_simp

theorem scanLine_skip (acc : Option ℚ) (l : List Char)
    (h : startsL extinfHdr l = false) : scanLine acc l = acc := by
  rw [scanLine, if_neg (by simp [h])]

theorem scanLine_noMatch (acc : Option ℚ) (l : List Char)
    (h : extinfMatch l = none) : scanLine acc l = acc := by
  rw [scanLine]
  by_cases hs : startsL extinfHdr l = true
  · rw [if_pos hs, h]
  · rw [if_neg hs]

theorem foldl_scanLine_skip : ∀ (ls : List (List Char)) (acc : Option ℚ),
    (∀ l ∈ ls, startsL extinfHdr l = false) → ls.foldl scanLine acc = acc := by
  intro ls
  induction ls with
  | nil => intro acc _; rfl
  | cons l ls ih =>
    intro acc h
    rw [List.foldl_cons, scanLine_skip acc l (h l (List.mem_cons_self l _))]
    exact ih acc (fun x hx => h x (List.mem_cons_of_mem l hx))

theorem duration_no_extinf (t : List Char) (h : hasExtinf t = false) :
    getVideoDurationOfManifest t = some 0 := by
  rw [getVideoDurationOfManifest, totalDur, foldl_scanLine_skip _ _ ?_]
  · show some (jsRound 0) = some 0
    have : jsRound 0 = 0 := by decide
    rw [this]
  · intro l hl
    rw [hasExtinf] at h
    exact Bool.eq_false_iff.mpr (List.any_eq_false.mp h l hl)

/-! ## Lemmas: chat assembly and the stable sort -/

theorem leKeyB_total (a b : ChatMsg) (h : leKeyB a b = false) : leKeyB b a = true := by
  rw [leKeyB] at h ⊢
  simp only [Bool.or_eq_false_iff, Bool.and_eq_false_iff, Bool.or_eq_true,
    Bool.and_eq_true, decide_eq_false_iff_not, decide_eq_true_eq] at h ⊢
  rcases lt_trichotomy a.vt b.vt with hlt | heq | hgt
  · exact absurd hlt h.1
  · rcases h.2 with h2 | h2
    · exact absurd heq h2
    · exact Or.inr ⟨heq.symm, le_of_not_le h2⟩
  · exact Or.inl hgt

theorem leKeyB_trans (a b c : ChatMsg) (hab : leKeyB a b = true)
    (hbc : leKeyB b c = true) : leKeyB a c = true := by
  rw [leKeyB] at hab hbc ⊢
  simp only [Bool.or_eq_true, Bool.and_eq_true, decide_eq_true_eq] at hab hbc ⊢
  rcases hab with h1 | ⟨h1, h1'⟩ <;> rcases hbc with h2 | ⟨h2, h2'⟩
  · exact Or.inl (h1.trans h2)
  · exact Or.inl (h2 ▸ h1)
  · exact Or.inl (h1 ▸ h2)
  · exact Or.inr ⟨h1.trans h2, h1'.trans h2'⟩

theorem insM_mem (x z : ChatMsg) : ∀ (l : List ChatMsg), z ∈ insM x l ↔ z = x ∨ z ∈ l := by
  intro l
  induction l with
  | nil => simp [insM]
  | cons y r ih =>
    rw [insM]
    by_cases h : leKeyB x y = true
    · rw [if_pos h]
      simp only [List.mem_cons]
    · rw [if_neg h]
      simp only [List.mem_cons, ih]
      tauto

theorem insM_pairwise (x : ChatMsg) :
    ∀ (l : List ChatMsg), l.Pairwise (fun a b => leKeyB a b = true) →
      (insM x l).Pairwise (fun a b => leKeyB a b = true) := by
  intro l
  induction l with
  | nil => intro _; simp [insM]
  | cons y r ih =>
    intro hp
    rw [List.pairwise_cons] at hp
    rw [insM]
    by_cases h : leKeyB x y = true
    · rw [if_pos h]
      refine List.pairwise_cons.mpr ⟨?_, List.pairwise_cons.mpr hp⟩
      intro z hz
      rcases List.mem_cons.mp hz with rfl | hz'
      · exact h
      · exact leKeyB_trans x y z h (hp.1 z hz')
    · rw [if_neg h]
      refine List.pairwise_cons.mpr ⟨?_, ih hp.2⟩
      intro z hz
      rcases (insM_mem x z r).mp hz with hxz | hz'
      · rw [hxz]
        exact leKeyB_total x y (Bool.eq_false_iff.mpr h)
      · exact hp.1 z hz'

theorem sortMsgs_pairwise : ∀ (l : List ChatMsg),
    (sortMsgs l).Pairwise (fun a b => leKeyB a b = true) := by
  intro l
  induction l with
  | nil => simp [sortMsgs]
  | cons x r ih => exact insM_pairwise x (sortMsgs r) ih

theorem insM_filter_pos (p : ChatMsg → Bool)
    (hp : ∀ a b, p a = true → p b = true → leKeyB a b = true)
    (x : ChatMsg) (px : p x = true) :
    ∀ (l : List ChatMsg), (insM x l).filter p = x :: l.filter p := by
  intro l
  induction l with
  | nil => simp [insM, List.filter, px]
  | cons y r ih =>
    rw [insM]
    by_cases h : leKeyB x y = true
    · rw [if_pos h]
      simp [List.filter_cons, px]
    · rw [if_neg h]
      have hpy : p y = false := by
        cases hpy : p y with
        | true => exact absurd (hp x y px hpy) h
        | false => rfl
      rw [List.filter_cons, if_neg (by simp [hpy]), ih, List.filter_cons,
        if_neg (by simp [hpy])]

theorem insM_filter_neg (p : ChatMsg → Bool) (x : ChatMsg) (px : p x = false) :
    ∀ (l : List ChatMsg), (insM x l).filter p = l.filter p := by
  intro l
  induction l with
  | nil => simp [insM, List.filter, px]
  | cons y r ih =>
    rw [insM]
    by_cases h : leKeyB x y = true
    · rw [if_pos h]
      rw [List.filter_cons, if_neg (by simp [px])]
    · rw [if_neg h]
      rw [List.filter_cons, List.filter_cons, ih]

theorem sortMsgs_filter (p : ChatMsg → Bool)
    (hp : ∀ a b, p a = true → p b = true → leKeyB a b = true) :
    ∀ (l : List ChatMsg), (sortMsgs l).filter p = l.filter p := by
  intro l
  induction l with
  | nil => rfl
  | cons x r ih =>
    show (insM x (sortMsgs r)).filter p = (x :: r).filter p
    cases px : p x with
    | true =>
      rw [insM_filter_pos p hp x px, ih, List.filter_cons, if_pos (by simp [px])]
    | false =>
      rw [insM_filter_neg p x px, ih, List.filter_cons, if_neg (by simp [px])]

theorem collectRange_congr (f g : ℤ → Option (List ChatMsg))
    (ts : List ℤ) (h : ∀ t ∈ ts, fetchShard f t = fetchShard g t) :
    collectRange f ts = collectRange g ts := by
  induction ts with
  | nil => rfl
  | cons t r ih =>
    show fetchShard f t ++ collectRange f r = fetchShard g t ++ collectRange g r
    rw [h t (List.mem_cons_self t _), ih (fun x hx => h x (List.mem_cons_of_mem t hx))]

theorem secondsList_empty (s e : ℤ) (h : e < s) : secondsList s e = [] := by
  rw [secondsList, show (e + 1 - s).toNat = 0 by omega]
  rfl

/-! ## Lemmas: metadata reconciliation -/

theorem lookupA_append (k : String) (r : VideoRec) :
    ∀ (md l2 : List (String × VideoRec)), lookupA k md = some r →
      lookupA k (md ++ l2) = some r := by
  intro md
  induction md with
  | nil => intro l2 h; exact absurd h (by simp [lookupA])
  | cons kv md' ih =>
    intro l2 h
    obtain ⟨k', v⟩ := kv
    rw [lookupA] at h
    rw [List.cons_append, lookupA]
    by_cases hk : k = k'
    · rw [if_pos hk] at h ⊢; exact h
    · rw [if_neg hk] at h ⊢; exact ih l2 h

theorem syncMetadata_keeps (now : String) (durOf : String → Option ℤ)
    (k : String) (r : VideoRec) :
    ∀ (remote : List (String × RemoteEntry)) (md : List (String × VideoRec)),
      lookupA k md = some r →
      lookupA k (remote.foldl (fun md kv =>
        if (lookupA kv.1 md).isSome then md
        else md ++ [(kv.1, mkRec now durOf kv.1 kv.2)]) md) = some r := by
  intro remote
  induction remote with
  | nil => intro md h; exact h
  | cons kv rest ih =>
    intro md h
    rw [List.foldl_cons]
    by_cases hk : (lookupA kv.1 md).isSome = true
    · rw [if_pos hk]
      exact ih md h
    · rw [if_neg hk]
      exact ih _ (lookupA_append k r md _ h)

theorem syncMetadata_noop (now : String) (durOf : String → Option ℤ) :
    ∀ (remote : List (String × RemoteEntry)) (md : List (String × VideoRec)),
      (∀ kv ∈ remote, (lookupA kv.1 md).isSome = true) →
      remote.foldl (fun md kv =>
        if (lookupA kv.1 md).isSome then md
        else md ++ [(kv.1, mkRec now durOf kv.1 kv.2)]) md = md := by
  intro remote
  induction remote with
  | nil => intro md _; rfl
  | cons kv rest ih =>
    intro md h
    rw [List.foldl_cons, if_pos (h kv (List.mem_cons_self kv _))]
    exact ih md (fun x hx => h x (List.mem_cons_of_mem kv hx))

/-! ## Claim theorems -/

/-- C1, counterexample: the manifest rewrite is not idempotent.  The bare
container line `part0.mp4` is rewritten to `/api/mp4/part0.mp4`, and a second
rewrite prefixes it again to `/api/mp4//api/mp4/part0.mp4`, because the
negative lookahead skips only absolute (`http(s)://`) and `#` lines, not
already-proxied paths. -/
theorem c1_rewrite_not_idempotent :
    rewriteChars (rewriteChars cxIdem) ≠ rewriteChars cxIdem ∧
    rewriteChars cxIdem = mp4Pfx ++ cxIdem ∧
    rewriteChars (rewriteChars cxIdem) = mp4Pfx ++ (mp4Pfx ++ cxIdem) :=
  ⟨by decide, by decide, by decide⟩

/-- C1, amended: the rewrite is idempotent on every manifest text containing
no `.mp4` container reference — in particular `.ts` segment rewriting is
idempotent, since a rewritten segment line starts with `https://` and is
skipped by a second pass.  (On `.mp4` references idempotence fails, as the
counterexample shows.) -/
theorem c1_rewrite_idempotent_amended (t : List Char)
    (h : hasSub mp4Ext t = false) :
    rewriteChars (rewriteChars t) = rewriteChars t :=
  rewrite_idem_core t h

/-- C1, witness: the amended idempotence at a concrete `.ts` manifest. -/
theorem c1_witness :
    hasSub mp4Ext wIdem = false ∧
      rewriteChars (rewriteChars wIdem) = rewriteChars wIdem :=
  ⟨by decide, c1_rewrite_idempotent_amended wIdem (by decide)⟩

/-- C2, counterexample: the single-line manifest `URI="x.mp4"y.ts` is a
non-comment, non-absolute line ending in `.ts`, yet its rewritten form is not
the upstream-absolutized line: the quoted `.mp4` attribute inside it is also
rewritten. -/
theorem c2_counterexample :
    tsLineMatch cxTsLine = true ∧ splitOnNl cxTsLine = [cxTsLine] ∧
      rewriteChars cxTsLine ≠ tsPfx ++ cxTsLine :=
  ⟨by decide, by decide, by decide⟩

/-- C2, amended: line-by-line behavior of the rewrite, for manifests whose
quoted `URI="` attributes close within their line, with the line categories
taken as exclusive (a `.ts`/`.mp4`/absolute line containing a `URI="` opener
is additionally subject to the attribute rewrite).  Conjuncts: the spec's
three-line scenario rewrites exactly as expected; line count is preserved;
a relative `.ts` line maps to the absolute upstream URL; a bare relative
`.mp4` line maps to the container proxy path; an absolute line is untouched;
a `#` line is transformed exactly by the quoted-attribute replace. -/
theorem c2_rewrite_cases (t : List Char)
    (hcl : ∀ l ∈ splitOnNl t, uriClosed l = true) :
    rewriteChars scRewrite = scRewriteOut ∧
    (splitOnNl (rewriteChars t)).length = (splitOnNl t).length ∧
    ∀ (i : ℕ) (l : List Char), (splitOnNl t)[i]? = some l →
      (tsLineMatch l = true → hasSub uriOpen l = false →
          (splitOnNl (rewriteChars t))[i]? = some (tsPfx ++ l)) ∧
      (mp4LineMatch l = true → hasSub uriOpen l = false →
          (splitOnNl (rewriteChars t))[i]? = some (mp4Pfx ++ l)) ∧
      (isAbs l = true → hasSub uriOpen l = false →
          (splitOnNl (rewriteChars t))[i]? = some l) ∧
      (isHash l = true → (splitOnNl (rewriteChars t))[i]? = some (r2 l)) := by
  refine ⟨by decide, ?_, ?_⟩
  · rw [splitOnNl_length, splitOnNl_length, rewrite_count]
  · intro i l hl
    have hout : (splitOnNl (rewriteChars t))[i]? = some (r3Line (r2 (r1Line l))) := by
      rw [rewrite_lines t hcl, List.getElem?_map, hl]
      rfl
    refine ⟨?_, ?_, ?_, ?_⟩
    · intro hts hnu
      rw [hout, comp_ts_line l hts hnu]
    · intro hmp hnu
      rw [hout, comp_mp4_line l hmp hnu]
    · intro habs hnu
      rw [hout, comp_abs_line l habs hnu]
    · intro hh
      rw [hout, comp_hash_line l hh]

/-- C2, witness: the guarded statement applied to the spec's scenario
manifest, whose lines all have closed quotes. -/
theorem c2_witness :
    (∀ l ∈ splitOnNl scRewrite, uriClosed l = true) ∧
      (splitOnNl (rewriteChars scRewrite)).length = (splitOnNl scRewrite).length :=
  ⟨by decide, (c2_rewrite_cases scRewrite (by decide)).2.1⟩

/-- C3, counterexample: a manifest with zero `#EXTINF` duration directives
yields the integer `0` (`Math.round` of the empty sum), not an absent value —
`getVideoDuration` returns `null` only when the upstream fetch fails. -/
theorem c3_counterexample :
    hasExtinf scNoExtinf = false ∧
      getVideoDurationOfManifest scNoExtinf ≠ none ∧
      getVideoDurationOfManifest scNoExtinf = some 0 :=
  ⟨by decide, by decide, by decide⟩

/-- C3, amended: for every manifest with zero duration directives the
computed duration is `0`, not absent. -/
theorem c3_zero_directives_yield_zero (t : List Char) (h : hasExtinf t = false) :
    getVideoDurationOfManifest t = some 0 :=
  duration_no_extinf t h

/-- C3, witness: the amended claim at a concrete directive-free manifest. -/
theorem c3_witness :
    hasExtinf scNoExtinf = false ∧ getVideoDurationOfManifest scNoExtinf = some 0 :=
  ⟨by decide, c3_zero_directives_yield_zero scNoExtinf (by decide)⟩

/-- C4: when upstream answers 2xx, the container proxy relays exactly the
upstream status code, and the emitted `Content-Range` header is identical to
upstream's (also when absent). -/
theorem c4_range_passthrough (r : UpstreamResp)
    (h1 : 200 ≤ r.status) (h2 : r.status < 300) :
    emittedStatus (mp4Proxy (some r)) = r.status ∧
      emittedContentRange (mp4Proxy (some r)) = r.contentRange := by
  have hok : respOk r.status = true := by
    rw [respOk]
    simp [h1, h2]
  simp only [mp4Proxy, hok, if_true]
  exact ⟨rfl, rfl⟩

/-- C4, witness: the spec's scenario — upstream `206` with
`Content-Range: bytes 1000-1999/50000` is relayed identically. -/
theorem c4_witness :
    emittedStatus (mp4Proxy (some r206)) = 206 ∧
      emittedContentRange (mp4Proxy (some r206)) = some "bytes 1000-1999/50000" :=
  c4_range_passthrough r206 (by decide) (by decide)

/-- C5: every assembled chat range is totally ordered ascending by
`(video_timestamp, timestamp-or-zero)` — `leKeyB` — and the sort is stable:
restricted to any fixed key `(k, q)`, the output lists exactly the collected
messages of that key in shard arrival order. -/
theorem c5_chat_ordering (f : ℤ → Option (List ChatMsg)) (s e : ℤ) :
    (assembleRange f s e).Pairwise (fun a b => leKeyB a b = true) ∧
    ∀ (k : ℤ) (q : ℚ),
      (assembleRange f s e).filter (fun m => decide (m.vt = k) && decide (tsv m = q)) =
        (collectRange f (secondsList s e)).filter
          (fun m => decide (m.vt = k) && decide (tsv m = q)) := by
  constructor
  · exact sortMsgs_pairwise _
  · intro k q
    refine sortMsgs_filter _ ?_ _
    intro a b ha hb
    simp only [Bool.and_eq_true, decide_eq_true_eq] at ha hb
    rw [leKeyB]
    have hvt : a.vt = b.vt := by rw [ha.1, hb.1]
    have hts : tsv a ≤ tsv b := by rw [ha.2, hb.2]
    simp [hvt, hts]

/-- C6, counterexample: in the manifest `#EXTINF:4.0,` + `#EXTINF:.,` the
second duration value `.` is non-numeric, yet it is not skipped: it matches
`[0-9.]+`, `parseFloat` yields `NaN`, and the whole sum is poisoned — the
result is `NaN` (modelled `none`) instead of the partial sum `4`. -/
theorem c6_counterexample :
    getVideoDurationOfManifest cxDurDot ≠ some 4 ∧
      getVideoDurationOfManifest cxDurDot = none :=
  ⟨by decide, by decide⟩

/-- C6, amended: duration directives `4.0, 4.0, 2.5` sum to `10.5` and round
half-up to `11`; a malformed value that fails the `#EXTINF:([0-9.]+),`
pattern (such as `abc`) is skipped without affecting the sum; in general a
line whose pattern match fails leaves the accumulator unchanged.  (A
dots-only value such as `.` matches the pattern, parses as `NaN` and poisons
the whole sum — see the counterexample.) -/
theorem c6_duration_accumulation :
    getVideoDurationOfManifest scDur = some 11 ∧
    getVideoDurationOfManifest scDurMalformed = some 11 ∧
    ∀ (acc : Option ℚ) (l : List Char), extinfMatch l = none → scanLine acc l = acc :=
  ⟨by decide, by decide, fun acc l h => scanLine_noMatch acc l h⟩

/-- C6, witness: the skip clause applied to a concrete malformed line. -/
theorem c6_witness : scanLine (some 2) mfLine = some 2 :=
  c6_duration_accumulation.2.2 (some 2) mfLine (by decide)

/-- C7: a failed shard fetch is equivalent to an empty shard — replacing the
failing second by an explicit empty message list leaves the assembled range
unchanged — and in the spec's scenario (second 42 fails, 41 and 43 carry one
message each) the range `[41,43]` returns exactly the two surviving messages
in timestamp order. -/
theorem c7_failed_shard_skipped :
    (∀ (f : ℤ → Option (List ChatMsg)) (t0 : ℤ), f t0 = none → ∀ (s e : ℤ),
        assembleRange f s e =
          assembleRange (fun u => if u = t0 then some [] else f u) s e) ∧
    assembleRange shards4143 41 43 =
      [{ vt := 41, ts := some 1, pid := 1 }, { vt := 43, ts := some 2, pid := 2 }] := by
  constructor
  · intro f t0 h s e
    rw [assembleRange, assembleRange]
    congr 1
    refine collectRange_congr f _ _ ?_
    intro t _
    by_cases hteq : t = t0
    · subst hteq
      rw [fetchShard, fetchShard, h, if_pos rfl]
      rfl
    · rw [fetchShard, fetchShard, if_neg hteq]
  · decide

/-- C7, witness: the failure-is-empty equivalence at the scenario shards,
whose fetch for second 42 fails. -/
theorem c7_witness :
    assembleRange shards4143 41 43 =
      assembleRange (fun u => if u = 42 then some [] else shards4143 u) 41 43 :=
  c7_failed_shard_skipped.1 shards4143 42 (by decide) 41 43

/-- C8: the manifest rewrite preserves the number of lines of every input,
and the lines stay in the same order: for manifests whose quoted `URI="`
attributes close within their own line (so no attribute match spans a line
break), the output's line list is exactly the input's line list mapped, index
by index, through the per-line rewrite — no line is reordered, inserted or
dropped. -/
theorem c8_line_count_and_order (t : List Char) :
    (splitOnNl (rewriteChars t)).length = (splitOnNl t).length ∧
    ((∀ l ∈ splitOnNl t, uriClosed l = true) →
      splitOnNl (rewriteChars t) =
        (splitOnNl t).map (fun l => r3Line (r2 (r1Line l)))) := by
  constructor
  · rw [splitOnNl_length, splitOnNl_length, rewrite_count]
  · intro hcl
    exact rewrite_lines t hcl

/-- C8, witness: the line correspondence at the spec's scenario manifest,
whose lines all have closed quotes. -/
theorem c8_witness :
    (∀ l ∈ splitOnNl scRewrite, uriClosed l = true) ∧
      splitOnNl (rewriteChars scRewrite) =
        (splitOnNl scRewrite).map (fun l => r3Line (r2 (r1Line l))) :=
  ⟨by decide, (c8_line_count_and_order scRewrite).2 (by decide)⟩

/-- C9: metadata sync is add-only — every record already present under its
index key is returned unchanged, with every field (including its duration)
intact, so nothing is ever deleted or recomputed; and a sync in which every
remote key is already known leaves the store exactly as it was, never calling
the duration oracle. -/
theorem c9_sync_add_only (now : String) (durOf : String → Option ℤ)
    (localMd : List (String × VideoRec)) (remote : List (String × RemoteEntry)) :
    (∀ (k : String) (r : VideoRec), lookupA k localMd = some r →
        lookupA k (syncMetadata now durOf localMd remote) = some r) ∧
    ((∀ kv ∈ remote, (lookupA kv.1 localMd).isSome = true) →
        syncMetadata now durOf localMd remote = localMd) := by
  constructor
  · intro k r h
    exact syncMetadata_keeps now durOf k r remote localMd h
  · intro h
    exact syncMetadata_noop now durOf remote localMd h

/-- C9, witness: after the scenario sync the pre-existing record `rec1` is
still bound, unchanged, under its key. -/
theorem c9_witness :
    lookupA "k1" (syncMetadata "t0" durOf0 local0 remote0) = some rec1 :=
  (c9_sync_add_only "t0" durOf0 local0 remote0).1 "k1" rec1 (by decide)

/-- C10: calling the chat assembler with `start > end` fetches no shards and
returns the empty sequence (the fetch loop guard fails immediately). -/
theorem c10_inverted_range_empty (f : ℤ → Option (List ChatMsg)) (s e : ℤ)
    (h : e < s) : assembleRange f s e = [] := by
  rw [assembleRange, secondsList_empty s e h]
  rfl

/-- C10, witness: the inverted range `[5,3]` returns the empty sequence. -/
theorem c10_witness : assembleRange shards4143 5 3 = [] :=
  c10_inverted_range_empty shards4143 5 3 (by decide)
